import Mathlib

/-
  Verification development for the NYC capital-projects embedding notebook
  (notebooks/02_bert_embedded_descriptions.ipynb).

  Python strings are modelled as lists of characters (`Str`).  The notebook's
  text operations (str.split, str.strip, str.join, str.replace), the csv
  module's writer, and the pandas/`float` based reader are embedded as
  structurally recursive Lean functions so that every definition evaluates
  inside the kernel.
-/

/-- A Python string, modelled as its sequence of characters. -/
abbrev Str := List Char

/-- The whitespace characters stripped by Python's `str.strip()`
(space, tab, newline, carriage return, vertical tab, form feed). -/
def isPySpace (c : Char) : Bool :=
  c = ' ' || c = '\t' || c = '\n' || c = '\r' || c = '\x0B' || c = '\x0C'

/-- Python `s.strip()`: remove leading and trailing whitespace. -/
def stripChars (s : Str) : Str :=
  ((s.dropWhile isPySpace).reverse.dropWhile isPySpace).reverse

/-- Accumulator worker for `splitOnChar`. -/
def splitAux (sep : Char) (acc : Str) : Str → List Str
  | [] => [acc.reverse]
  | c :: cs =>
      if c = sep then acc.reverse :: splitAux sep [] cs
      else splitAux sep (c :: acc) cs

/-- Python `s.split(sep)` for a one-character separator: `n` separators
produce `n+1` fragments, empty fragments included. -/
def splitOnChar (sep : Char) (s : Str) : List Str :=
  splitAux sep [] s

/-- Python `sep.join(fragments)`. -/
def joinWith (sep : Str) : List Str → Str
  | [] => []
  | [x] => x
  | x :: y :: r => x ++ sep ++ joinWith sep (y :: r)

/-- One raw row of the source table, as consumed by cells 11-12 of the
notebook: a project identifier and an optional free-text description
(`None` models a pandas NaN, which the notebook detects via
`type(row.Description) == float`). -/
structure ProjectRecord (ι : Type) where
  pid : ι
  description : Option Str
deriving DecidableEq

/-- Pandas `DataFrame.drop_duplicates` restricted to a key function:
keep each row whose key has not been seen before, in input order.
`seen` is the accumulator of already-seen keys. -/
def dropDuplicates {α β : Type} [DecidableEq β] (key : α → β) (seen : List β) :
    List α → List α
  | [] => []
  | r :: rs =>
      if key r ∈ seen then dropDuplicates key seen rs
      else r :: dropDuplicates key (key r :: seen) rs

/-- The Description Selector of cells 11-12:
`data[['PID','Description']].drop_duplicates()` followed by keeping the
first row per `PID` (`drop_duplicates` on the `PID` column and `.loc`
selection of the surviving indexes). -/
def selectProjects {ι : Type} [DecidableEq ι] (rows : List (ProjectRecord ι)) :
    List (ProjectRecord ι) :=
  let all_descriptions := dropDuplicates (fun r => (r.pid, r.description)) [] rows
  dropDuplicates (fun r => r.pid) [] all_descriptions

/-- The fragment pipeline of cell 14 for a present description:
`[x.strip() for x in row.Description.split('.') if x != '']`. -/
def descFragments (d : Str) : List Str :=
  ((splitOnChar '.' d).filter (fun f => !f.isEmpty)).map stripChars

/-- The normalized text of cell 14: `'_'` for a missing description,
otherwise `' '.join(descFragments d)`. -/
def normText : Option Str → Str
  | none => ['_']
  | some d => joinWith [' '] (descFragments d)

/-- The `desc` list built by cell 14 and handed to `extract_embeddings`:
always a one-element list holding the normalized text. -/
def descUnits (od : Option Str) : List Str :=
  match od with
  | none => [['_']]
  | some d => [joinWith [' '] (descFragments d)]

/-- An (identifier, embedding) pair as serialized by cell 14.  `pid` is the
text rendering of the identifier (`str(row.PID)`); each vector component is
the decimal text rendering of one floating-point value (`str` applied to the
component inside `str(list(emb))`). -/
structure EmbeddingRecord where
  pid : Str
  vector : List Str
deriving DecidableEq

/-- Python `str(list(v))` for a list of numbers whose renderings are given:
`'[' + ', '.join(tokens) + ']'`. -/
def pyStrList (v : List Str) : Str :=
  '[' :: (joinWith (',' :: ' ' :: []) v ++ [']'])

/-- The embedding field of cell 14:
`str(list(emb)).replace('[','').replace(']','')`. -/
def embField (v : List Str) : Str :=
  ((pyStrList v).filter (fun c => !(c = '['))).filter (fun c => !(c = ']'))

/-- Python `csv.writer` QUOTE_MINIMAL test: a field is quoted iff it contains
the delimiter, the quote character, or a line-terminator character. -/
def csvNeedsQuote (s : Str) : Bool :=
  s.any (fun c => c = ',' || c = '"' || c = '\r' || c = '\n')

/-- Double every quote character, as `csv.writer` does inside quoted fields. -/
def csvEsc : Str → Str
  | [] => []
  | c :: cs => if c = '"' then '"' :: '"' :: csvEsc cs else c :: csvEsc cs

/-- Wrap a field in quotes, doubling interior quote characters. -/
def csvQuote (s : Str) : Str :=
  '"' :: (csvEsc s ++ ['"'])

/-- One serialized csv field under QUOTE_MINIMAL. -/
def csvField (s : Str) : Str :=
  if csvNeedsQuote s then csvQuote s else s

/-- One row written by `csv.writer(..., delimiter=",")`: fields joined by
commas and terminated by the default `\r\n` line terminator. -/
def csvRow (fs : List Str) : Str :=
  joinWith [','] (fs.map csvField) ++ ['\r', '\n']

/-- The full file content produced by the write loop of cell 14 on a given
sequence of EmbeddingRecord: the header row `PID,embedding` followed by one
row per record, in order. -/
def writerOutput (recs : List EmbeddingRecord) : Str :=
  csvRow ["PID".data, "embedding".data] ++
    (recs.map (fun r => csvRow [r.pid, embField r.vector])).flatten

/-- Python `float(x)` on a valid decimal literal, modelled by the
whitespace-stripped literal text: two equal stripped literals denote equal
floating-point values, which is the only fact the development uses. -/
def pyFloatLit (s : Str) : Str := stripChars s

/-- The `convert` function of cell 18:
`[float(x) for x in s.embedding.split(',')]`. -/
def convert (embeddingField : Str) : List Str :=
  (splitOnChar ',' embeddingField).map pyFloatLit

/-- Remove one trailing carriage return, modelling universal-newline
handling of `\r\n` terminated lines. -/
def stripOneCR (l : Str) : Str :=
  match l.reverse with
  | '\r' :: r => r.reverse
  | _ => l

/-- State machine splitting one csv line into fields, with QUOTE_MINIMAL
quoting rules.  `mode`: 0 = outside quotes, 1 = inside quotes, 2 = just saw
a quote character while inside quotes (it either doubles or closes). -/
def fieldsAux (acc : Str) (mode : Nat) : Str → List Str
  | [] => [acc.reverse]
  | c :: rest =>
      match mode with
      | 0 =>
          if c = ',' then acc.reverse :: fieldsAux [] 0 rest
          else if c = '"' then fieldsAux acc 1 rest
          else fieldsAux (c :: acc) 0 rest
      | 1 =>
          if c = '"' then fieldsAux acc 2 rest
          else fieldsAux (c :: acc) 1 rest
      | _ =>
          if c = '"' then fieldsAux ('"' :: acc) 1 rest
          else if c = ',' then acc.reverse :: fieldsAux [] 0 rest
          else fieldsAux (c :: acc) 0 rest

/-- Split one csv line into its fields. -/
def splitFields (line : Str) : List Str :=
  fieldsAux [] 0 line

/-- The tabular parse performed by `pd.read_csv` on the Writer's files:
split the content into lines, drop blank lines, and split each line into
csv fields.  (Modelled for files whose quoted fields contain no newline
characters, which holds for every file the Writer emits.) -/
def readRows (content : Str) : List (List Str) :=
  (((splitOnChar '\n' content).map stripOneCR).filter (fun l => !l.isEmpty)).map
    splitFields

/-- The Reader of cell 18: `pd.read_csv` followed by `convert` applied to the
embedding column.  Returns one (identifier text, vector of component
literals) pair per data row, the header row dropped. -/
def readEmbeddings (content : Str) : List (Str × List Str) :=
  match readRows content with
  | [] => []
  | _header :: dataRows =>
      dataRows.map (fun fields => (fields.getD 0 [], convert (fields.getD 1 [])))

/-- The complete selection-normalization-embedding-write pipeline of
cells 11-14, for a fixed external embedding provider (`extract_embeddings`)
and a fixed identifier rendering (`str`). -/
def pipelineOutput {ι : Type} [DecidableEq ι] (render : ι → Str)
    (provider : List Str → List (List Str)) (rows : List (ProjectRecord ι)) :
    Str :=
  csvRow ["PID".data, "embedding".data] ++
    ((selectProjects rows).map (fun r =>
      csvRow [render r.pid, embField ((provider (descUnits r.description)).getD 0 [])])).flatten

/-- Spec-side definition (for the Selector refinement claim): the distinct
elements of a list in order of first appearance, written from the spec's
words rather than from the notebook's double `drop_duplicates`. -/
def firstAppearanceOrder {β : Type} [DecidableEq β] : List β → List β
  | [] => []
  | k :: ks => k :: (firstAppearanceOrder ks).filter (fun x => decide (x ≠ k))

theorem dropDuplicates_sublist {α β : Type} [DecidableEq β] (key : α → β) :
    ∀ (rs : List α) (seen : List β),
      List.Sublist (dropDuplicates key seen rs) rs
  | [], _ => List.Sublist.slnil
  | r :: rs, seen => by
      by_cases h : key r ∈ seen
      · simp only [dropDuplicates, if_pos h]
        exact (dropDuplicates_sublist key rs seen).cons r
      · simp only [dropDuplicates, if_neg h]
        exact (dropDuplicates_sublist key rs (key r :: seen)).cons₂ r

theorem dropDuplicates_comp {α β γ : Type} [DecidableEq β] [DecidableEq γ]
    (f : α → β) (g : α → γ) (proj : β → γ) (hg : ∀ a, g a = proj (f a)) :
    ∀ (rs : List α) (seenF : List β) (seenG : List γ),
      (∀ b ∈ seenF, proj b ∈ seenG) →
      dropDuplicates g seenG (dropDuplicates f seenF rs)
        = dropDuplicates g seenG rs
  | [], _, _, _ => rfl
  | r :: rs, seenF, seenG, hinv => by
      by_cases hf : f r ∈ seenF
      · have hgr : g r ∈ seenG := by rw [hg]; exact hinv _ hf
        simp only [dropDuplicates, if_pos hf, if_pos hgr]
        exact dropDuplicates_comp f g proj hg rs seenF seenG hinv
      · by_cases hgr : g r ∈ seenG
        · simp only [dropDuplicates, if_neg hf, if_pos hgr]
          exact dropDuplicates_comp f g proj hg rs (f r :: seenF) seenG
            (by
              intro b hb
              rcases List.mem_cons.mp hb with h | h
              · subst h; rw [← hg]; exact hgr
              · exact hinv _ h)
        · simp only [dropDuplicates, if_neg hf, if_neg hgr]
          congr 1
          exact dropDuplicates_comp f g proj hg rs (f r :: seenF) (g r :: seenG)
            (by
              intro b hb
              rcases List.mem_cons.mp hb with h | h
              · subst h; rw [← hg]; exact List.mem_cons_self _ _
              · exact List.mem_cons_of_mem _ (hinv _ h))

theorem key_not_mem_seen {α β : Type} [DecidableEq β] (key : α → β) :
    ∀ (rs : List α) (seen : List β) (r' : α),
      r' ∈ dropDuplicates key seen rs → key r' ∉ seen
  | [], _, _, h => absurd h (List.not_mem_nil _)
  | r :: rs, seen, r', h => by
      by_cases hk : key r ∈ seen
      · rw [dropDuplicates, if_pos hk] at h
        exact key_not_mem_seen key rs seen r' h
      · rw [dropDuplicates, if_neg hk] at h
        rcases List.mem_cons.mp h with h | h
        · subst h; exact hk
        · have := key_not_mem_seen key rs (key r :: seen) r' h
          exact fun hmem => this (List.mem_cons_of_mem _ hmem)

theorem find?_dropDuplicates {α β : Type} [DecidableEq β] (key : α → β) :
    ∀ (rs : List α) (seen : List β) (r' : α),
      r' ∈ dropDuplicates key seen rs →
      rs.find? (fun r => decide (key r = key r')) = some r'
  | [], _, _, h => absurd h (List.not_mem_nil _)
  | r :: rs, seen, r', h => by
      by_cases hk : key r ∈ seen
      · rw [dropDuplicates, if_pos hk] at h
        have hne : key r ≠ key r' := fun he =>
          key_not_mem_seen key rs seen r' h (he ▸ hk)
        rw [List.find?_cons_of_neg _ (by simpa using hne)]
        exact find?_dropDuplicates key rs seen r' h
      · rw [dropDuplicates, if_neg hk] at h
        rcases List.mem_cons.mp h with h | h
        · subst h
          exact List.find?_cons_of_pos _ (by simp)
        · have hnot := key_not_mem_seen key rs (key r :: seen) r' h
          have hne : key r ≠ key r' := fun he =>
            hnot (he ▸ List.mem_cons_self _ _)
          rw [List.find?_cons_of_neg _ (by simpa using hne)]
          exact find?_dropDuplicates key rs (key r :: seen) r' h

theorem map_key_dropDuplicates {α β : Type} [DecidableEq β] (key : α → β) :
    ∀ (rs : List α) (seen : List β),
      (dropDuplicates key seen rs).map key
        = dropDuplicates id seen (rs.map key)
  | [], _ => rfl
  | r :: rs, seen => by
      by_cases hk : key r ∈ seen
      · simp only [dropDuplicates, List.map_cons, if_pos hk, id]
        exact map_key_dropDuplicates key rs seen
      · simp only [dropDuplicates, List.map_cons, if_neg hk, id, List.map]
        rw [map_key_dropDuplicates key rs (key r :: seen)]

theorem mem_dropDuplicates_id {β : Type} [DecidableEq β] :
    ∀ (ks seen : List β) (k : β),
      k ∈ dropDuplicates id seen ks ↔ (k ∈ ks ∧ k ∉ seen)
  | [], seen, k => by simp [dropDuplicates]
  | k₀ :: ks, seen, k => by
      by_cases hk : k₀ ∈ seen
      · rw [dropDuplicates]
        simp only [id, if_pos hk]
        rw [mem_dropDuplicates_id ks seen k]
        constructor
        · rintro ⟨h1, h2⟩; exact ⟨List.mem_cons_of_mem _ h1, h2⟩
        · rintro ⟨h1, h2⟩
          rcases List.mem_cons.mp h1 with h | h
          · exact absurd (h ▸ hk) h2
          · exact ⟨h, h2⟩
      · rw [dropDuplicates]
        simp only [id, if_neg hk]
        rw [List.mem_cons, mem_dropDuplicates_id ks (k₀ :: seen) k]
        constructor
        · rintro (h | ⟨h1, h2⟩)
          · subst h; exact ⟨List.mem_cons_self _ _, hk⟩
          · exact ⟨List.mem_cons_of_mem _ h1,
              fun hm => h2 (List.mem_cons_of_mem _ hm)⟩
        · rintro ⟨h1, h2⟩
          by_cases he : k = k₀
          · exact Or.inl he
          · rcases List.mem_cons.mp h1 with h | h
            · exact absurd h he
            · exact Or.inr ⟨h, by simp [List.mem_cons, he, h2]⟩

theorem nodup_dropDuplicates_id {β : Type} [DecidableEq β] :
    ∀ (ks seen : List β), (dropDuplicates id seen ks).Nodup
  | [], _ => List.nodup_nil
  | k₀ :: ks, seen => by
      by_cases hk : k₀ ∈ seen
      · rw [dropDuplicates]; simp only [id, if_pos hk]
        exact nodup_dropDuplicates_id ks seen
      · rw [dropDuplicates]; simp only [id, if_neg hk]
        refine List.Nodup.cons ?_ (nodup_dropDuplicates_id ks (k₀ :: seen))
        intro hmem
        exact ((mem_dropDuplicates_id ks (k₀ :: seen) k₀).mp hmem).2
          (List.mem_cons_self _ _)

theorem dropDuplicates_id_eq_fAO {β : Type} [DecidableEq β] :
    ∀ (ks seen : List β),
      dropDuplicates id seen ks
        = (firstAppearanceOrder ks).filter (fun k => decide (k ∉ seen))
  | [], seen => rfl
  | k₀ :: ks, seen => by
      rw [firstAppearanceOrder]
      by_cases hk : k₀ ∈ seen
      · rw [dropDuplicates]
        simp only [id, if_pos hk]
        rw [dropDuplicates_id_eq_fAO ks seen, List.filter_cons]
        simp only [hk, not_true_eq_false, decide_False, Bool.false_eq_true,
          if_false, List.filter_filter]
        refine List.filter_congr ?_
        intro a _
        by_cases ha : a ∈ seen
        · simp [ha]
        · have : a ≠ k₀ := fun he => ha (he ▸ hk)
          simp [ha, this]
      · rw [dropDuplicates]
        simp only [id, if_neg hk]
        rw [dropDuplicates_id_eq_fAO ks (k₀ :: seen), List.filter_cons]
        simp only [hk, not_false_iff, decide_True, if_true, List.filter_filter]
        congr 1
        refine List.filter_congr ?_
        intro a _
        by_cases h1 : a = k₀ <;> by_cases h2 : a ∈ seen <;>
          simp [h1, h2, List.mem_cons]

theorem selectProjects_eq_single {ι : Type} [DecidableEq ι]
    (rows : List (ProjectRecord ι)) :
    selectProjects rows = dropDuplicates (fun r => r.pid) [] rows := by
  unfold selectProjects
  exact dropDuplicates_comp (fun r => (r.pid, r.description)) (fun r => r.pid)
    Prod.fst (fun a => rfl) rows [] [] (by simp)

/-- Claim C2: for every input sequence of ProjectRecord, the Description
Selector's output preserves input order (it is a sublist of the input), no
identifier appears twice, each emitted record is the record at its
identifier's first occurrence in the input, the emitted identifiers are
exactly the distinct input identifiers in order of first appearance, and the
empty input yields the empty output. -/
theorem selector_first_occurrence {ι : Type} [DecidableEq ι]
    (rows : List (ProjectRecord ι)) :
    List.Sublist (selectProjects rows) rows
    ∧ ((selectProjects rows).map ProjectRecord.pid).Nodup
    ∧ (∀ r' ∈ selectProjects rows,
        rows.find? (fun r => decide (r.pid = r'.pid)) = some r')
    ∧ (∀ k : ι, k ∈ (selectProjects rows).map ProjectRecord.pid
        ↔ k ∈ rows.map ProjectRecord.pid)
    ∧ (selectProjects rows).map ProjectRecord.pid
        = firstAppearanceOrder (rows.map ProjectRecord.pid)
    ∧ selectProjects ([] : List (ProjectRecord ι)) = [] := by
  rw [selectProjects_eq_single]
  refine ⟨dropDuplicates_sublist _ rows [], ?_, ?_, ?_, ?_, rfl⟩
  · rw [map_key_dropDuplicates]
    exact nodup_dropDuplicates_id _ _
  · intro r' hr'
    exact find?_dropDuplicates (fun r => r.pid) rows [] r' hr'
  · intro k
    rw [map_key_dropDuplicates, mem_dropDuplicates_id]
    simp
  · rw [map_key_dropDuplicates, dropDuplicates_id_eq_fAO]
    exact List.filter_eq_self.mpr (fun a _ => by simp)

theorem filterMap_strip_eq_map_filter :
    ∀ l : List Str,
      l.filterMap (fun f => if f = [] then none else some (stripChars f))
        = (l.filter (fun f => !f.isEmpty)).map stripChars
  | [] => rfl
  | f :: l => by
      by_cases h : f = []
      · simp [List.filterMap_cons, List.filter_cons, h,
          filterMap_strip_eq_map_filter l]
      · have h' : f.isEmpty = false := by
          cases f
          · exact absurd rfl h
          · rfl
        simp [List.filterMap_cons, List.filter_cons, h, h',
          filterMap_strip_eq_map_filter l]

/-- Spec-side definition (the Normalizer algorithm exactly as Claim C4 words
it): split on the period character, discard every fragment that is empty
after trimming, trim the survivors, rejoin with single spaces. -/
def specNormalizeClaimed (d : Str) : Str :=
  joinWith [' ']
    (((splitOnChar '.' d).filter (fun f => !(stripChars f).isEmpty)).map
      stripChars)

/-- Spec-side definition (Claim C4 amended): split on the period character,
discard every fragment that is the empty string (before any trimming), trim
the survivors, rejoin with single spaces; phrased as one filterMap pass. -/
def specNormalizeAmended (d : Str) : Str :=
  joinWith [' ']
    ((splitOnChar '.' d).filterMap
      (fun f => if f = [] then none else some (stripChars f)))

/-- Claim C4 (counterexample): on the description `" . "` the notebook keeps
both whitespace-only fragments (its filter tests the fragment before
trimming), producing the one-space string, while the claimed
discard-empty-after-trim algorithm produces the empty string. -/
theorem normalizer_claim_counterexample :
    normText (some " . ".data) = " ".data
    ∧ specNormalizeClaimed " . ".data = []
    ∧ normText (some " . ".data) ≠ specNormalizeClaimed " . ".data := by
  refine ⟨rfl, rfl, ?_⟩
  decide

/-- Claim C4 (amended): for every present description, the Normalizer splits
on the period character, discards the fragments that are empty before any
trimming (whitespace-only fragments survive and trim to empty strings),
trims the survivors, and rejoins them with single space separators; zero
surviving fragments yield the empty string. -/
theorem normalizer_algorithm_amended (d : Str) :
    normText (some d) = specNormalizeAmended d := by
  rw [normText, specNormalizeAmended, filterMap_strip_eq_map_filter,
    descFragments]

/-- Claim C5: the Text Normalizer is total: every description, missing or
present, yields exactly one NormalizedText unit. -/
theorem normalizer_total_one_unit (od : Option Str) :
    (descUnits od).length = 1 := by
  cases od <;> rfl

/-- Claim C7: a missing description normalizes to the sentinel `"_"`, and
the two-sentence boiler description collapses to one period-free line. -/
theorem normalizer_scenarios :
    normText none = "_".data
    ∧ normText
        (some "Replace aging boiler system. Includes HVAC upgrade.".data)
      = "Replace aging boiler system Includes HVAC upgrade".data :=
  ⟨rfl, rfl⟩

/-- Claim C6 (counterexample): the empty description and the all-periods
description are present (not missing) and both normalize to the empty
string, so the Normalizer's output is not always non-empty. -/
theorem normalizer_nonempty_counterexample :
    normText (some "".data) = [] ∧ normText (some "...".data) = [] :=
  ⟨rfl, rfl⟩

theorem mem_dropWhile_of_not {p : Char → Bool} :
    ∀ l : Str, ∀ c ∈ l, p c = false → c ∈ l.dropWhile p
  | a :: l, c, hc, hpc => by
      by_cases ha : p a
      · rw [List.dropWhile_cons_of_pos ha]
        rcases List.mem_cons.mp hc with h | h
        · subst h; rw [ha] at hpc; cases hpc
        · exact mem_dropWhile_of_not l c h hpc
      · rw [List.dropWhile_cons_of_neg ha]
        exact hc

theorem mem_stripChars {c : Char} (hc : isPySpace c = false) :
    ∀ s : Str, c ∈ s → c ∈ stripChars s := by
  intro s hs
  rw [stripChars]
  rw [List.mem_reverse]
  apply mem_dropWhile_of_not _ c _ hc
  rw [List.mem_reverse]
  exact mem_dropWhile_of_not _ c hs hc

theorem mem_splitAux {sep : Char} {c : Char} :
    ∀ (s acc : Str), (c ∈ acc ∨ (c ∈ s ∧ c ≠ sep)) →
      ∃ f ∈ splitAux sep acc s, c ∈ f
  | [], acc, h => by
      rcases h with h | ⟨h, _⟩
      · exact ⟨acc.reverse, List.mem_singleton_self _, List.mem_reverse.mpr h⟩
      · cases h
  | a :: s, acc, h => by
      rw [splitAux]
      by_cases ha : a = sep
      · rw [if_pos ha]
        rcases h with h | ⟨h, hne⟩
        · exact ⟨acc.reverse, List.mem_cons_self _ _, List.mem_reverse.mpr h⟩
        · rcases List.mem_cons.mp h with h | h
          · subst h; exact absurd ha hne
          · obtain ⟨f, hf, hcf⟩ := mem_splitAux s [] (Or.inr ⟨h, hne⟩)
            exact ⟨f, List.mem_cons_of_mem _ hf, hcf⟩
      · rw [if_neg ha]
        rcases h with h | ⟨h, hne⟩
        · exact mem_splitAux s (a :: acc)
            (Or.inl (List.mem_cons_of_mem _ h))
        · rcases List.mem_cons.mp h with h | h
          · subst h
            exact mem_splitAux s (c :: acc) (Or.inl (List.mem_cons_self _ _))
          · exact mem_splitAux s (a :: acc) (Or.inr ⟨h, hne⟩)

theorem joinWith_ne_nil {sep : Str} {c : Char} :
    ∀ (L : List Str) (f : Str), f ∈ L → c ∈ f → joinWith sep L ≠ []
  | [], f, hf, _ => absurd hf (List.not_mem_nil _)
  | [x], f, hf, hc => by
      rw [List.mem_singleton] at hf
      subst hf
      rw [joinWith]
      exact List.ne_nil_of_mem hc
  | x :: y :: L, f, hf, hc => by
      rw [joinWith]
      intro hcontra
      rcases List.append_eq_nil.mp hcontra with ⟨hx, hjoin⟩
      rcases List.append_eq_nil.mp hx with ⟨hx', _⟩
      rcases List.mem_cons.mp hf with h | h
      · exact List.ne_nil_of_mem hc (h ▸ hx')
      · exact joinWith_ne_nil (y :: L) f h hc hjoin

/-- Whether a description contains at least one character that is neither
whitespace nor a period. -/
def hasContentChar (d : Str) : Bool :=
  d.any (fun c => !isPySpace c && !(c = '.'))

/-- Claim C6 (amended): a missing description maps to the non-empty sentinel
`"_"`, and every present description containing at least one character that
is neither whitespace nor a period yields non-empty normalized text;
descriptions made only of periods and whitespace may normalize to the empty
string. -/
theorem normalizer_nonempty_amended :
    normText none = ['_']
    ∧ ∀ d : Str, hasContentChar d = true → normText (some d) ≠ [] := by
  refine ⟨rfl, ?_⟩
  intro d hd
  rw [hasContentChar, List.any_eq_true] at hd
  obtain ⟨c, hcd, hc⟩ := hd
  rw [Bool.and_eq_true, Bool.not_eq_true', Bool.not_eq_true'] at hc
  obtain ⟨hcs, hcp⟩ := hc
  have hcp' : c ≠ '.' := by simpa using hcp
  obtain ⟨f, hf, hcf⟩ := mem_splitAux d [] (Or.inr ⟨hcd, hcp'⟩)
  rw [normText]
  have hfkeep : f ∈ (splitOnChar '.' d).filter (fun f => !f.isEmpty) := by
    rw [List.mem_filter]
    refine ⟨hf, ?_⟩
    simp [List.isEmpty_iff, List.ne_nil_of_mem hcf]
  have hstrip : stripChars f ∈ descFragments d :=
    List.mem_map_of_mem stripChars hfkeep
  exact joinWith_ne_nil (descFragments d) (stripChars f) hstrip
    (mem_stripChars hcs f hcf)

theorem mem_of_mem_dropWhile {p : Char → Bool} :
    ∀ l : Str, ∀ c ∈ l.dropWhile p, c ∈ l
  | [], c, hc => hc
  | a :: l, c, hc => by
      by_cases ha : p a
      · rw [List.dropWhile_cons_of_pos ha] at hc
        exact List.mem_cons_of_mem _ (mem_of_mem_dropWhile l c hc)
      · rw [List.dropWhile_cons_of_neg ha] at hc
        exact hc

theorem mem_of_mem_stripChars {c : Char} {s : Str} (h : c ∈ stripChars s) :
    c ∈ s := by
  rw [stripChars, List.mem_reverse] at h
  have h2 := mem_of_mem_dropWhile _ c h
  rw [List.mem_reverse] at h2
  exact mem_of_mem_dropWhile _ c h2

theorem splitAux_no_sep {sep : Char} :
    ∀ (s acc : Str), (∀ c ∈ acc, c ≠ sep) →
      ∀ f ∈ splitAux sep acc s, ∀ c ∈ f, c ≠ sep
  | [], acc, hacc, f, hf => by
      rw [splitAux, List.mem_singleton] at hf
      subst hf
      intro c hcf
      exact hacc c (List.mem_reverse.mp hcf)
  | a :: s, acc, hacc, f, hf => by
      rw [splitAux] at hf
      by_cases ha : a = sep
      · rw [if_pos ha] at hf
        rcases List.mem_cons.mp hf with h | h
        · subst h
          intro c hcf
          exact hacc c (List.mem_reverse.mp hcf)
        · exact splitAux_no_sep s [] (by simp) f h
      · rw [if_neg ha] at hf
        exact splitAux_no_sep s (a :: acc)
          (by
            intro c hc
            rcases List.mem_cons.mp hc with h | h
            · subst h; exact ha
            · exact hacc c h) f hf

theorem mem_joinWith {sep : Str} {c : Char} :
    ∀ L : List Str, c ∈ joinWith sep L → c ∈ sep ∨ ∃ f ∈ L, c ∈ f
  | [], h => absurd h (List.not_mem_nil _)
  | [x], h => by
      rw [joinWith] at h
      exact Or.inr ⟨x, List.mem_singleton_self _, h⟩
  | x :: y :: L, h => by
      rw [joinWith] at h
      rcases List.mem_append.mp h with h | h
      · rcases List.mem_append.mp h with h | h
        · exact Or.inr ⟨x, List.mem_cons_self _ _, h⟩
        · exact Or.inl h
      · rcases mem_joinWith (y :: L) h with h | ⟨f, hf, hcf⟩
        · exact Or.inl h
        · exact Or.inr ⟨f, List.mem_cons_of_mem _ hf, hcf⟩

/-- Claim C9: for every present description, the normalized text contains no
period character. -/
theorem normalizer_no_period (d : Str) :
    (normText (some d)).all (fun c => c != '.') = true := by
  rw [List.all_eq_true]
  intro c hc
  rw [bne_iff_ne]
  rw [normText] at hc
  rcases mem_joinWith (descFragments d) hc with h | ⟨f, hf, hcf⟩
  · rw [List.mem_singleton] at h
    subst h
    decide
  · rw [descFragments, List.mem_map] at hf
    obtain ⟨g, hg, hgf⟩ := hf
    rw [List.mem_filter] at hg
    subst hgf
    exact splitAux_no_sep d [] (by simp) g hg.1 c (mem_of_mem_stripChars hcf)

/-- The characters that can occur in the decimal text rendering of a finite
floating-point number (`str` of a float: digits, sign, point, exponent). -/
def isTokChar (c : Char) : Bool :=
  c.isDigit || c = '-' || c = '+' || c = '.' || c = 'e' || c = 'E'

/-- A well-formed vector-component literal: non-empty decimal float text. -/
def validTok (t : Str) : Bool :=
  !t.isEmpty && t.all isTokChar

/-- A well-formed rendered identifier: non-empty text free of the csv
delimiter, quote and line-terminator characters (`str` of an integer PID). -/
def validPid (p : Str) : Bool :=
  !p.isEmpty && p.all (fun c => !(c = ',' || c = '"' || c = '\r' || c = '\n'))

theorem tokChar_props {c : Char} (h : isTokChar c = true) :
    c ≠ ',' ∧ c ≠ '"' ∧ c ≠ '\r' ∧ c ≠ '\n' ∧ c ≠ '[' ∧ c ≠ ']'
      ∧ isPySpace c = false := by
  refine ⟨?_, ?_, ?_, ?_, ?_, ?_, ?_⟩
  · intro he; subst he; exact absurd h (by decide)
  · intro he; subst he; exact absurd h (by decide)
  · intro he; subst he; exact absurd h (by decide)
  · intro he; subst he; exact absurd h (by decide)
  · intro he; subst he; exact absurd h (by decide)
  · intro he; subst he; exact absurd h (by decide)
  · cases hsp : isPySpace c
    · rfl
    · exfalso
      rw [isPySpace] at hsp
      simp only [Bool.or_eq_true, decide_eq_true_eq] at hsp
      rcases hsp with ((((h1 | h1) | h1) | h1) | h1) | h1 <;>
        (subst h1; exact absurd h (by decide))

theorem validPid_chars {p : Str} (hp : validPid p = true) :
    ∀ c ∈ p, c ≠ ',' ∧ c ≠ '"' ∧ c ≠ '\r' ∧ c ≠ '\n' := by
  rw [validPid, Bool.and_eq_true, List.all_eq_true] at hp
  intro c hc
  have h := hp.2 c hc
  simp only [Bool.not_eq_true', Bool.or_eq_false_iff, decide_eq_false_iff_not]
    at h
  exact ⟨h.1.1.1, h.1.1.2, h.1.2, h.2⟩

theorem validPid_ne_nil {p : Str} (hp : validPid p = true) : p ≠ [] := by
  rw [validPid, Bool.and_eq_true] at hp
  have := hp.1
  cases p
  · cases this
  · exact fun hcontra => List.noConfusion hcontra

theorem validTok_chars {t : Str} (ht : validTok t = true) :
    ∀ c ∈ t, isTokChar c = true := by
  rw [validTok, Bool.and_eq_true, List.all_eq_true] at ht
  exact ht.2

theorem validTok_ne_nil {t : Str} (ht : validTok t = true) : t ≠ [] := by
  rw [validTok, Bool.and_eq_true] at ht
  have := ht.1
  cases t
  · cases this
  · exact fun hcontra => List.noConfusion hcontra

theorem joinWith_sep₂_chars {v : List Str}
    (hv : ∀ t ∈ v, validTok t = true) :
    ∀ c ∈ joinWith (',' :: ' ' :: []) v,
      c ≠ '"' ∧ c ≠ '\r' ∧ c ≠ '\n' ∧ c ≠ '[' ∧ c ≠ ']' := by
  intro c hc
  rcases mem_joinWith v hc with h | ⟨t, ht, hct⟩
  · rcases List.mem_cons.mp h with h | h
    · subst h; refine ⟨by decide, by decide, by decide, by decide, by decide⟩
    · rw [List.mem_singleton] at h
      subst h; refine ⟨by decide, by decide, by decide, by decide, by decide⟩
  · have := tokChar_props (validTok_chars (hv t ht) c hct)
    exact ⟨this.2.1, this.2.2.1, this.2.2.2.1, this.2.2.2.2.1,
      this.2.2.2.2.2.1⟩

theorem joinWith_pair (sep a b : Str) : joinWith sep [a, b] = a ++ sep ++ b :=
  rfl

theorem map_congr_mem {α β : Type} (f g : α → β) :
    ∀ l : List α, (∀ a ∈ l, f a = g a) → l.map f = l.map g
  | [], _ => rfl
  | a :: l, h => by
      rw [List.map_cons, List.map_cons, h a (List.mem_cons_self _ _),
        map_congr_mem f g l (fun x hx => h x (List.mem_cons_of_mem _ hx))]

theorem embField_eq_joinWith {v : List Str}
    (hv : ∀ t ∈ v, validTok t = true) :
    embField v = joinWith (',' :: ' ' :: []) v := by
  have hJ : ∀ c ∈ joinWith (',' :: ' ' :: []) v, c ≠ '[' ∧ c ≠ ']' := by
    intro c hc
    have := joinWith_sep₂_chars hv c hc
    exact ⟨this.2.2.2.1, this.2.2.2.2⟩
  rw [embField, pyStrList, List.filter_cons]
  simp only [decide_True, Bool.not_true, Bool.false_eq_true, if_false]
  rw [List.filter_append]
  have h1 : (joinWith (',' :: ' ' :: []) v).filter (fun c => !(c = '[')) =
      joinWith (',' :: ' ' :: []) v :=
    List.filter_eq_self.mpr (fun c hc => by
      simp [decide_eq_false_iff_not, (hJ c hc).1])
  rw [h1]
  have h2 : ([']'] : Str).filter (fun c => !(c = '[')) = [']'] := by decide
  rw [h2, List.filter_append]
  have h3 : (joinWith (',' :: ' ' :: []) v).filter (fun c => !(c = ']')) =
      joinWith (',' :: ' ' :: []) v :=
    List.filter_eq_self.mpr (fun c hc => by
      simp [decide_eq_false_iff_not, (hJ c hc).2])
  rw [h3]
  have h4 : ([']'] : Str).filter (fun c => !(c = ']')) = [] := by decide
  rw [h4, List.append_nil]

theorem csvNeedsQuote_eq_false {s : Str}
    (h : ∀ c ∈ s, c ≠ ',' ∧ c ≠ '"' ∧ c ≠ '\r' ∧ c ≠ '\n') :
    csvNeedsQuote s = false := by
  rw [csvNeedsQuote]
  rw [List.any_eq_false]
  intro c hc
  obtain ⟨h1, h2, h3, h4⟩ := h c hc
  simp [h1, h2, h3, h4]

theorem csvField_eq_self {s : Str}
    (h : ∀ c ∈ s, c ≠ ',' ∧ c ≠ '"' ∧ c ≠ '\r' ∧ c ≠ '\n') :
    csvField s = s := by
  rw [csvField, csvNeedsQuote_eq_false h]
  simp

theorem csvEsc_eq_self {s : Str} (h : ∀ c ∈ s, c ≠ '"') : csvEsc s = s := by
  induction s with
  | nil => rfl
  | cons c cs ih =>
      rw [csvEsc, if_neg (h c (List.mem_cons_self _ _))]
      rw [ih (fun x hx => h x (List.mem_cons_of_mem _ hx))]

theorem comma_mem_joinWith_sep₂ (t₁ t₂ : Str) (r : List Str) :
    (',' : Char) ∈ joinWith (',' :: ' ' :: []) (t₁ :: t₂ :: r) := by
  rw [joinWith]
  exact List.mem_append.mpr (Or.inl (List.mem_append.mpr
    (Or.inr (List.mem_cons_self _ _))))

theorem csvField_embField {v : List Str}
    (hv : ∀ t ∈ v, validTok t = true) :
    csvField (embField v)
      = if 2 ≤ v.length
        then '"' :: (joinWith (',' :: ' ' :: []) v ++ ['"'])
        else joinWith (',' :: ' ' :: []) v := by
  rw [embField_eq_joinWith hv]
  match v with
  | [] => decide
  | [t] =>
      rw [joinWith]
      have hne : ¬ (2 ≤ ([t] : List Str).length) := by simp
      rw [if_neg hne]
      apply csvField_eq_self
      intro c hc
      have := tokChar_props (validTok_chars (hv t (List.mem_singleton_self t)) c hc)
      exact ⟨this.1, this.2.1, this.2.2.1, this.2.2.2.1⟩
  | t₁ :: t₂ :: r =>
      have hlen : 2 ≤ (t₁ :: t₂ :: r).length := by simp
      rw [if_pos hlen, csvField]
      have hq : csvNeedsQuote (joinWith (',' :: ' ' :: []) (t₁ :: t₂ :: r))
          = true := by
        rw [csvNeedsQuote, List.any_eq_true]
        exact ⟨',', comma_mem_joinWith_sep₂ t₁ t₂ r, by decide⟩
      rw [hq]
      simp only [if_true]
      rw [csvQuote, csvEsc_eq_self
        (fun c hc => (joinWith_sep₂_chars hv c hc).1)]

theorem csvRow_pair (a b : Str) :
    csvRow [a, b] = csvField a ++ ',' :: (csvField b ++ ['\r', '\n']) := by
  rw [csvRow, List.map_cons, List.map_cons, List.map_nil, joinWith_pair]
  simp [List.append_assoc]

/-- Spec-side definition (Claim C3 amended): header `PID,embedding`, one row
per record in input order, each row the identifier, a comma, then the
components joined by comma-space, the whole embedding field wrapped in
quotes when the vector has at least two components, rows terminated by
carriage-return line-feed. -/
def specWriterAmended (recs : List EmbeddingRecord) : Str :=
  "PID,embedding".data ++ '\r' :: '\n' ::
    (recs.map (fun r =>
      r.pid ++ ',' ::
        ((if 2 ≤ r.vector.length
          then '"' :: (joinWith (',' :: ' ' :: []) r.vector ++ ['"'])
          else joinWith (',' :: ' ' :: []) r.vector) ++ ['\r', '\n']))).flatten

/-- Claim C3 (counterexample): on the scenario input the Writer does not
produce `PID,embedding\n3,0.1,-2.5\n7,1.0\n`: `csv.writer` terminates rows
with `\r\n`, renders the two-component vector with comma-space separators,
and quotes the resulting comma-containing field. -/
theorem writer_scenario_counterexample :
    writerOutput
        [⟨"3".data, ["0.1".data, "-2.5".data]⟩, ⟨"7".data, ["1.0".data]⟩]
      ≠ "PID,embedding\n3,0.1,-2.5\n7,1.0\n".data := by
  decide

/-- Claim C3 (amended): the Writer emits the header `PID,embedding` and one
row per record in input order; each row is the identifier, a comma, and the
vector's components joined by comma-space with no brackets; the embedding
field is quoted exactly when the vector has two or more components; rows end
with `\r\n`.  On the scenario input the file content is
`PID,embedding\r\n3,"0.1, -2.5"\r\n7,1.0\r\n`. -/
theorem writer_format_amended :
    (∀ recs : List EmbeddingRecord,
      (∀ r ∈ recs, validPid r.pid = true ∧ ∀ t ∈ r.vector, validTok t = true) →
      writerOutput recs = specWriterAmended recs)
    ∧ writerOutput
        [⟨"3".data, ["0.1".data, "-2.5".data]⟩, ⟨"7".data, ["1.0".data]⟩]
      = "PID,embedding\r\n3,\"0.1, -2.5\"\r\n7,1.0\r\n".data := by
  constructor
  · intro recs h
    have hrows : recs.map (fun r => csvRow [r.pid, embField r.vector])
        = recs.map (fun r =>
            r.pid ++ ',' ::
              ((if 2 ≤ r.vector.length
                then '"' :: (joinWith (',' :: ' ' :: []) r.vector ++ ['"'])
                else joinWith (',' :: ' ' :: []) r.vector) ++ ['\r', '\n'])) := by
      apply map_congr_mem
      intro r hr
      obtain ⟨hp, hv⟩ := h r hr
      rw [csvRow_pair, csvField_eq_self (validPid_chars hp),
        csvField_embField hv]
    rw [writerOutput, specWriterAmended, hrows]
    have hhdr : csvRow ["PID".data, "embedding".data]
        = "PID,embedding".data ++ '\r' :: '\n' :: [] := by decide
    rw [hhdr, List.append_assoc]
    rfl
  · decide

/-- Claim C8: an empty record sequence makes the Writer emit only the header
row, and the Reader on that header-only file returns the empty sequence. -/
theorem empty_input_boundary :
    writerOutput [] = "PID,embedding".data ++ ['\r', '\n']
    ∧ readEmbeddings (writerOutput []) = [] := by
  exact ⟨by decide, by decide⟩

theorem splitAux_append {sep : Char} :
    ∀ (xs acc ys : Str), (∀ c ∈ xs, c ≠ sep) →
      splitAux sep acc (xs ++ sep :: ys)
        = (acc.reverse ++ xs) :: splitAux sep [] ys
  | [], acc, ys, _ => by
      rw [List.nil_append, splitAux, if_pos rfl, List.append_nil]
  | x :: xs, acc, ys, h => by
      rw [List.cons_append, splitAux,
        if_neg (h x (List.mem_cons_self _ _)),
        splitAux_append xs (x :: acc) ys
          (fun c hc => h c (List.mem_cons_of_mem _ hc))]
      congr 1
      rw [List.reverse_cons, List.append_assoc, List.singleton_append]

theorem splitAux_no_sep_run {sep : Char} :
    ∀ (xs acc : Str), (∀ c ∈ xs, c ≠ sep) →
      splitAux sep acc xs = [acc.reverse ++ xs]
  | [], acc, _ => by rw [splitAux, List.append_nil]
  | x :: xs, acc, h => by
      rw [splitAux, if_neg (h x (List.mem_cons_self _ _)),
        splitAux_no_sep_run xs (x :: acc)
          (fun c hc => h c (List.mem_cons_of_mem _ hc))]
      congr 1
      rw [List.reverse_cons, List.append_assoc, List.singleton_append]

theorem stripOneCR_append (xs : Str) : stripOneCR (xs ++ ['\r']) = xs := by
  have h : (xs ++ ['\r']).reverse = '\r' :: xs.reverse := by simp
  rw [stripOneCR, h]
  simp

/-- The data portion of one record's csv row: identifier, comma, quoted
comma-space-joined components (the form every well-formed record with at
least two components takes). -/
def bodyLine (r : EmbeddingRecord) : Str :=
  r.pid ++ ',' :: '"' :: (joinWith (',' :: ' ' :: []) r.vector ++ ['"'])

theorem bodyLine_no_newline {r : EmbeddingRecord}
    (hp : validPid r.pid = true) (hv : ∀ t ∈ r.vector, validTok t = true) :
    ∀ c ∈ bodyLine r ++ ['\r'], c ≠ '\n' := by
  intro c hc
  rw [bodyLine] at hc
  rcases List.mem_append.mp hc with hc | hc
  · rcases List.mem_append.mp hc with hc | hc
    · exact (validPid_chars hp c hc).2.2.2
    · rcases List.mem_cons.mp hc with hc | hc
      · subst hc; decide
      · rcases List.mem_cons.mp hc with hc | hc
        · subst hc; decide
        · rcases List.mem_append.mp hc with hc | hc
          · exact (joinWith_sep₂_chars hv c hc).2.2.1
          · rw [List.mem_singleton] at hc; subst hc; decide
  · rw [List.mem_singleton] at hc; subst hc; decide

theorem csvRow_record_eq_bodyLine {r : EmbeddingRecord}
    (hp : validPid r.pid = true) (hv : ∀ t ∈ r.vector, validTok t = true)
    (hlen : 2 ≤ r.vector.length) :
    csvRow [r.pid, embField r.vector] = bodyLine r ++ '\r' :: '\n' :: [] := by
  rw [csvRow_pair, csvField_eq_self (validPid_chars hp),
    csvField_embField hv, if_pos hlen, bodyLine]
  simp [List.append_assoc]

/-- Well-formedness of one EmbeddingRecord: a valid rendered identifier and
at least two valid component literals (the embedding model's dimensionality
is fixed and at least two). -/
def wfRecord (r : EmbeddingRecord) : Prop :=
  validPid r.pid = true ∧ (∀ t ∈ r.vector, validTok t = true)
    ∧ 2 ≤ r.vector.length

instance (r : EmbeddingRecord) : Decidable (wfRecord r) := by
  unfold wfRecord
  exact inferInstance

theorem lines_flatten_rows :
    ∀ recs : List EmbeddingRecord, (∀ r ∈ recs, wfRecord r) →
      splitOnChar '\n'
          ((recs.map (fun r => csvRow [r.pid, embField r.vector])).flatten)
        = recs.map (fun r => bodyLine r ++ ['\r']) ++ [[]]
  | [], _ => rfl
  | r :: recs, h => by
      obtain ⟨hp, hv, hlen⟩ := h r (List.mem_cons_self _ _)
      rw [List.map_cons, List.flatten_cons,
        csvRow_record_eq_bodyLine hp hv hlen]
      have hshape : (bodyLine r ++ '\r' :: '\n' :: []) ++
          ((recs.map (fun r => csvRow [r.pid, embField r.vector])).flatten)
          = (bodyLine r ++ ['\r']) ++ '\n' ::
              ((recs.map (fun r => csvRow [r.pid, embField r.vector])).flatten) := by
        simp [List.append_assoc]
      rw [hshape, splitOnChar, splitAux_append _ _ _
        (bodyLine_no_newline hp hv)]
      rw [List.reverse_nil, List.nil_append, List.map_cons, List.cons_append]
      congr 1
      exact lines_flatten_rows recs (fun x hx => h x (List.mem_cons_of_mem _ hx))

theorem lines_writer (recs : List EmbeddingRecord)
    (h : ∀ r ∈ recs, wfRecord r) :
    splitOnChar '\n' (writerOutput recs)
      = "PID,embedding\r".data ::
          (recs.map (fun r => bodyLine r ++ ['\r']) ++ [[]]) := by
  have hhdr : csvRow ["PID".data, "embedding".data]
      = "PID,embedding\r".data ++ '\n' :: [] := by decide
  have hshape : writerOutput recs
      = "PID,embedding\r".data ++ '\n' ::
          ((recs.map (fun r => csvRow [r.pid, embField r.vector])).flatten) := by
    rw [writerOutput, hhdr]
    simp [List.append_assoc]
  rw [hshape, splitOnChar, splitAux_append _ _ _ (by decide)]
  rw [List.reverse_nil, List.nil_append]
  congr 1
  exact lines_flatten_rows recs h

theorem dropWhile_eq_self_of_all {p : Char → Bool} {l : Str}
    (h : ∀ c ∈ l, p c = false) : l.dropWhile p = l := by
  cases l with
  | nil => rfl
  | cons c cs =>
      refine List.dropWhile_cons_of_neg ?_
      rw [h c (List.mem_cons_self _ _)]
      exact Bool.false_ne_true

theorem stripChars_eq_self {t : Str} (h : ∀ c ∈ t, isPySpace c = false) :
    stripChars t = t := by
  rw [stripChars, dropWhile_eq_self_of_all h,
    dropWhile_eq_self_of_all (fun c hc => h c (List.mem_reverse.mp hc)),
    List.reverse_reverse]

theorem stripChars_space_cons {t : Str}
    (h : ∀ c ∈ t, isPySpace c = false) :
    stripChars (' ' :: t) = t := by
  rw [stripChars, List.dropWhile_cons_of_pos (by decide),
    dropWhile_eq_self_of_all h,
    dropWhile_eq_self_of_all (fun c hc => h c (List.mem_reverse.mp hc)),
    List.reverse_reverse]

theorem cons_joinWith_sep₂ (a : Char) (t : Str) (r : List Str) :
    a :: joinWith (',' :: ' ' :: []) (t :: r)
      = joinWith (',' :: ' ' :: []) ((a :: t) :: r) := by
  cases r <;> simp [joinWith]

theorem splitOnChar_joinWith_sep₂ :
    ∀ (ts : List Str) (h : Str), (∀ c ∈ h, c ≠ ',') →
      (∀ t ∈ ts, ∀ c ∈ t, c ≠ ',') →
      splitOnChar ',' (joinWith (',' :: ' ' :: []) (h :: ts))
        = h :: ts.map (fun t => ' ' :: t)
  | [], h, hh, _ => by
      rw [joinWith, splitOnChar, splitAux_no_sep_run h [] hh,
        List.reverse_nil, List.nil_append, List.map_nil]
  | t :: ts, h, hh, hts => by
      rw [joinWith]
      have hshape : h ++ (',' :: ' ' :: []) ++
          joinWith (',' :: ' ' :: []) (t :: ts)
          = h ++ ',' :: (' ' :: joinWith (',' :: ' ' :: []) (t :: ts)) := by
        simp [List.append_assoc]
      rw [hshape, splitOnChar, splitAux_append _ _ _ hh, List.reverse_nil,
        List.nil_append, List.map_cons]
      congr 1
      rw [cons_joinWith_sep₂]
      exact splitOnChar_joinWith_sep₂ ts (' ' :: t)
        (by
          intro c hc
          rcases List.mem_cons.mp hc with hc | hc
          · subst hc; decide
          · exact hts t (List.mem_cons_self _ _) c hc)
        (fun x hx => hts x (List.mem_cons_of_mem _ hx))

theorem convert_joined {v : List Str}
    (hv : ∀ t ∈ v, validTok t = true) (hlen : 2 ≤ v.length) :
    convert (joinWith (',' :: ' ' :: []) v) = v := by
  match v, hlen with
  | t₁ :: t₂ :: ts, _ =>
      rw [convert, splitOnChar_joinWith_sep₂ (t₂ :: ts) t₁
        (fun c hc =>
          (tokChar_props (validTok_chars (hv t₁ (List.mem_cons_self _ _)) c hc)).1)
        (fun x hx c hc =>
          (tokChar_props (validTok_chars (hv x (List.mem_cons_of_mem _ hx)) c hc)).1)]
      rw [List.map_cons]
      have h₁ : pyFloatLit t₁ = t₁ := by
        rw [pyFloatLit]
        exact stripChars_eq_self (fun c hc =>
          (tokChar_props
            (validTok_chars (hv t₁ (List.mem_cons_self _ _)) c hc)).2.2.2.2.2.2)
      rw [h₁]
      congr 1
      rw [List.map_map]
      have : ∀ x ∈ t₂ :: ts, (pyFloatLit ∘ fun t => ' ' :: t) x = id x := by
        intro x hx
        show pyFloatLit (' ' :: x) = x
        rw [pyFloatLit]
        exact stripChars_space_cons (fun c hc =>
          (tokChar_props
            (validTok_chars (hv x (List.mem_cons_of_mem _ hx)) c hc)).2.2.2.2.2.2)
      rw [map_congr_mem _ _ _ this, List.map_id]

theorem fieldsAux_skip :
    ∀ (xs : Str) (acc rest : Str), (∀ c ∈ xs, c ≠ ',' ∧ c ≠ '"') →
      fieldsAux acc 0 (xs ++ rest) = fieldsAux (xs.reverse ++ acc) 0 rest
  | [], acc, rest, _ => by rw [List.nil_append, List.reverse_nil, List.nil_append]
  | x :: xs, acc, rest, h => by
      rw [List.cons_append, fieldsAux]
      have hx := h x (List.mem_cons_self _ _)
      rw [if_neg hx.1, if_neg hx.2,
        fieldsAux_skip xs (x :: acc) rest
          (fun c hc => h c (List.mem_cons_of_mem _ hc))]
      congr 1
      rw [List.reverse_cons, List.append_assoc, List.singleton_append]

theorem fieldsAux_quoted :
    ∀ (xs : Str) (acc rest : Str), (∀ c ∈ xs, c ≠ '"') →
      fieldsAux acc 1 (xs ++ rest) = fieldsAux (xs.reverse ++ acc) 1 rest
  | [], acc, rest, _ => by rw [List.nil_append, List.reverse_nil, List.nil_append]
  | x :: xs, acc, rest, h => by
      rw [List.cons_append, fieldsAux]
      rw [if_neg (h x (List.mem_cons_self _ _)),
        fieldsAux_quoted xs (x :: acc) rest
          (fun c hc => h c (List.mem_cons_of_mem _ hc))]
      congr 1
      rw [List.reverse_cons, List.append_assoc, List.singleton_append]

theorem splitFields_bodyLine {r : EmbeddingRecord}
    (hp : validPid r.pid = true) (hv : ∀ t ∈ r.vector, validTok t = true) :
    splitFields (bodyLine r)
      = [r.pid, joinWith (',' :: ' ' :: []) r.vector] := by
  rw [splitFields, bodyLine, fieldsAux_skip r.pid [] _
    (fun c hc =>
      ⟨(validPid_chars hp c hc).1, (validPid_chars hp c hc).2.1⟩)]
  rw [List.append_nil, fieldsAux]
  rw [if_pos rfl, List.reverse_reverse]
  congr 1
  rw [fieldsAux]
  rw [if_neg (by decide), if_pos rfl]
  rw [fieldsAux_quoted _ [] _
    (fun c hc => (joinWith_sep₂_chars hv c hc).1)]
  rw [List.append_nil, fieldsAux]
  rw [if_pos rfl, fieldsAux, List.reverse_reverse]

/-- Claim C1: reading back the Writer's file yields, for every well-formed
record sequence, exactly the identifiers and component literals that were
written, in order, and as many rows as were written.  Equality of the
component literals implies numeric equality of the parsed floating-point
values, which is the claim's decimal-text round-trip tolerance. -/
theorem readEmbeddings_of_readRows {content : Str} {hd : List Str}
    {rows : List (List Str)} (h : readRows content = hd :: rows) :
    readEmbeddings content
      = rows.map (fun fields => (fields.getD 0 [], convert (fields.getD 1 []))) := by
  rw [readEmbeddings, h]

theorem readRows_writer (recs : List EmbeddingRecord)
    (h : ∀ r ∈ recs, wfRecord r) :
    readRows (writerOutput recs)
      = splitFields "PID,embedding".data ::
          recs.map (fun r =>
            [r.pid, joinWith (',' :: ' ' :: []) r.vector]) := by
  rw [readRows, lines_writer recs h]
  rw [List.map_cons, List.map_append]
  have hmapline : (recs.map (fun r => bodyLine r ++ ['\r'])).map stripOneCR
      = recs.map bodyLine := by
    rw [List.map_map]
    exact map_congr_mem _ _ _ (fun r _ => stripOneCR_append (bodyLine r))
  rw [hmapline]
  rw [show stripOneCR "PID,embedding\r".data = "PID,embedding".data from by
    decide]
  rw [show (([[]] : List Str).map stripOneCR) = [[]] from rfl]
  rw [List.filter_cons]
  rw [show (!("PID,embedding".data).isEmpty) = true from rfl]
  simp only [if_true]
  rw [List.filter_append]
  have hfilter : (recs.map bodyLine).filter (fun l => !l.isEmpty)
      = recs.map bodyLine := by
    apply List.filter_eq_self.mpr
    intro l hl
    rw [List.mem_map] at hl
    obtain ⟨r, hr, hrl⟩ := hl
    subst hrl
    rw [bodyLine]
    cases r.pid <;> rfl
  rw [hfilter]
  rw [show (([[]] : List Str).filter (fun l => !l.isEmpty)) = [] from rfl]
  rw [List.append_nil, List.map_cons]
  congr 1
  rw [List.map_map]
  apply map_congr_mem
  intro r hr
  obtain ⟨hp, hv, _⟩ := h r hr
  exact splitFields_bodyLine hp hv

/-- Claim C1: reading back the Writer's file yields, for every well-formed
record sequence, exactly the identifiers and component literals that were
written, in order, and as many rows as were written.  Equality of the
component literals implies numeric equality of the parsed floating-point
values, which is the claim's decimal-text round-trip tolerance. -/
theorem round_trip_reader_writer (recs : List EmbeddingRecord)
    (h : ∀ r ∈ recs, wfRecord r) :
    readEmbeddings (writerOutput recs)
        = recs.map (fun r => (r.pid, r.vector))
    ∧ (readEmbeddings (writerOutput recs)).length = recs.length := by
  have hmain : readEmbeddings (writerOutput recs)
      = recs.map (fun r => (r.pid, r.vector)) := by
    rw [readEmbeddings_of_readRows (readRows_writer recs h)]
    rw [List.map_map]
    apply map_congr_mem
    intro r hr
    obtain ⟨hp, hv, hlen⟩ := h r hr
    show ([r.pid, joinWith (',' :: ' ' :: []) r.vector].getD 0 [],
        convert ([r.pid, joinWith (',' :: ' ' :: []) r.vector].getD 1 []))
      = (r.pid, r.vector)
    rw [show ([r.pid, joinWith (',' :: ' ' :: []) r.vector].getD 0 []) = r.pid
      from rfl]
    rw [show ([r.pid, joinWith (',' :: ' ' :: []) r.vector].getD 1 [])
        = joinWith (',' :: ' ' :: []) r.vector from rfl]
    rw [convert_joined hv hlen]
  exact ⟨hmain, by rw [hmain, List.length_map]⟩

/-- A concrete well-formed record sequence used by the witnesses below. -/
def sampleRecs : List EmbeddingRecord :=
  [⟨"3".data, ["0.1".data, "-2.5".data]⟩,
   ⟨"7".data, ["1.0".data, "2.5".data]⟩]

/-- Witness for Claim C1 at a concrete two-record input. -/
theorem round_trip_reader_writer_witness :
    (∀ r ∈ sampleRecs, wfRecord r)
    ∧ readEmbeddings (writerOutput sampleRecs)
        = [("3".data, ["0.1".data, "-2.5".data]),
           ("7".data, ["1.0".data, "2.5".data])]
    ∧ (readEmbeddings (writerOutput sampleRecs)).length = sampleRecs.length :=
  ⟨by decide,
   by rw [(round_trip_reader_writer sampleRecs (by decide)).1]; rfl,
   (round_trip_reader_writer sampleRecs (by decide)).2⟩

/-- Witness for Claim C3 (amended) at a concrete record sequence. -/
theorem writer_format_amended_witness :
    (∀ r ∈ sampleRecs,
      validPid r.pid = true ∧ ∀ t ∈ r.vector, validTok t = true)
    ∧ writerOutput sampleRecs = specWriterAmended sampleRecs :=
  ⟨by decide, writer_format_amended.1 sampleRecs (by decide)⟩

/-- Witness for Claim C6 (amended) at a concrete description. -/
theorem normalizer_nonempty_amended_witness :
    hasContentChar "Replace aging boiler system".data = true
    ∧ normText (some "Replace aging boiler system".data) ≠ [] :=
  ⟨by decide, normalizer_nonempty_amended.2 _ (by decide)⟩

/-- Claim C10: for a fixed embedding provider (and identifier rendering),
the selection-normalization-write pipeline is a pure function of the input
records: two runs on equal inputs produce byte-identical file content. -/
theorem pipeline_deterministic {ι : Type} [DecidableEq ι] (render : ι → Str)
    (provider : List Str → List (List Str))
    (rows₁ rows₂ : List (ProjectRecord ι)) (h : rows₁ = rows₂) :
    pipelineOutput render provider rows₁
      = pipelineOutput render provider rows₂ := by
  rw [h]

/-- Witness for Claim C10 at a concrete input. -/
theorem pipeline_deterministic_witness :
    ([⟨3, some "a.b".data⟩] : List (ProjectRecord Nat)) = [⟨3, some "a.b".data⟩]
    ∧ pipelineOutput (fun n => (Nat.repr n).data) (fun _ => [["1.0".data]])
        [⟨3, some "a.b".data⟩]
      = pipelineOutput (fun n => (Nat.repr n).data) (fun _ => [["1.0".data]])
        [⟨3, some "a.b".data⟩] :=
  ⟨rfl,
   pipeline_deterministic (fun n => (Nat.repr n).data)
     (fun _ => [["1.0".data]]) [⟨3, some "a.b".data⟩] [⟨3, some "a.b".data⟩]
     rfl⟩
